import Mathlib

/-!
Verification of the json-c linked hash table (src/linkhash.h).

The repository snapshot contains the public header src/linkhash.h, which
declares the table and entry structures, the sentinel key values, the load
factor, and the inline accessor functions.  The bodies of the table
operations live in linkhash.c, which is not part of the snapshot; those
operations are therefore modelled from the specification (each such
definition carries a doc comment starting with "Modelled from the spec:").

Embedding choices:
- keys and values are pointer-sized machine words, embedded as Nat; the
  sentinel macros LH_EMPTY = (void *)-1 and LH_FREED = (void *)-2 become the
  two largest 64-bit values;
- the slot array is a total function from slot index to entry, updated
  pointwise (slots at or beyond the table size are never touched by the
  operations);
- the doubly linked insertion-order list (the prev and next fields of
  struct lh_entry together with head and tail of struct lh_table) is
  represented by the order field: the list of slot indices of the live
  entries in insertion order.  Head, tail, next and prev are recovered from
  this list;
- every probing loop carries explicit fuel equal to the table size, so that
  a full probe cycle visits each slot exactly once and then fails
  defensively instead of looping.
-/

set_option maxHeartbeats 1000000

/-- One slot of the open-addressing array: struct lh_entry from
src/linkhash.h, without the prev and next ordering links, which are
represented by the order field of lh_table instead. -/
structure lh_entry where
  k : Nat
  k_is_constant : Bool
  v : Nat
deriving DecidableEq

/-- Sentinel key value for empty slots: the macro LH_EMPTY is (void *)-1,
read as a 64-bit unsigned pointer value. -/
def LH_EMPTY : Nat := 2 ^ 64 - 1

/-- Sentinel key value for freed (tombstoned) slots: the macro LH_FREED is
(void *)-2, read as a 64-bit unsigned pointer value. -/
def LH_FREED : Nat := 2 ^ 64 - 2

/-- The slot contents an empty table starts with: key LH_EMPTY. -/
def emptySlot : lh_entry := { k := LH_EMPTY, k_is_constant := false, v := 0 }

/-- Option flag of lh_table_insert_w_hash requesting duplicate-insertion
semantics for the precomputed-hash fast path: the overwrite-in-place check
is skipped.  Declared in json_object.h, which is not under src/. -/
def JSON_C_OBJECT_ADD_KEY_IS_NEW : Nat := 2

/-- Option flag of lh_table_insert_w_hash marking the inserted key as
constant, so the table's free function will not free it.  Declared in
json_object.h, which is not under src/. -/
def JSON_C_OBJECT_ADD_CONSTANT_KEY : Nat := 4

/-- A slot is free exactly when its key field holds one of the two sentinel
values; this is how linkhash.h encodes slot state in lh_entry.k. -/
def isFree (e : lh_entry) : Bool := e.k == LH_EMPTY || e.k == LH_FREED

/-- A slot holds a live entry exactly when its key is neither sentinel. -/
def isOccupied (e : lh_entry) : Bool := !(isFree e)

/-- The struct lh_table of src/linkhash.h.  The head and tail fields and the
per-entry prev and next links are represented by the order list. -/
structure lh_table where
  size : Nat
  count : Nat
  table : Nat → lh_entry
  order : List Nat
  hash_fn : Nat → Nat
  equal_fn : Nat → Nat → Bool

/-- Pointwise update of the slot array. -/
def setSlot (tbl : Nat → lh_entry) (i : Nat) (e : lh_entry) : Nat → lh_entry :=
  fun j => if j = i then e else tbl j

/-- The live entries in insertion order (the walk of the ordering list). -/
def entryList (t : lh_table) : List lh_entry := t.order.map t.table

/-- The keys of the live entries in insertion order. -/
def keyList (t : lh_table) : List Nat := (entryList t).map lh_entry.k

/-- Embeds lh_table_head from src/linkhash.h: the first entry of the
insertion-order list, or none for an empty table. -/
def lh_table_head (t : lh_table) : Option Nat := t.order.head?

/-- Embeds lh_get_hash from src/linkhash.h: apply the table's hash function
to the key. -/
def lh_get_hash (t : lh_table) (k : Nat) : Nat := t.hash_fn k

/-- Embeds lh_entry_k from src/linkhash.h. -/
def lh_entry_k (e : lh_entry) : Nat := e.k

/-- Embeds lh_entry_k_is_constant from src/linkhash.h. -/
def lh_entry_k_is_constant (e : lh_entry) : Bool := e.k_is_constant

/-- Embeds lh_entry_v from src/linkhash.h. -/
def lh_entry_v (e : lh_entry) : Nat := e.v

/-- Embeds lh_entry_set_val from src/linkhash.h: replace the value field. -/
def lh_entry_set_val (e : lh_entry) (newval : Nat) : lh_entry :=
  { e with v := newval }

/-- Successor of an element in a list: the list analogue of following the
next pointer of the doubly linked ordering list. -/
def listSucc : List Nat → Nat → Option Nat
  | [], _ => none
  | a :: rest, i => if a = i then rest.head? else listSucc rest i

/-- Embeds lh_entry_next from src/linkhash.h, on the order-list
representation: the entry inserted right after entry i. -/
def lh_entry_next (t : lh_table) (i : Nat) : Option Nat := listSucc t.order i

/-- Embeds lh_entry_prev from src/linkhash.h, on the order-list
representation. -/
def lh_entry_prev (t : lh_table) (i : Nat) : Option Nat :=
  listSucc t.order.reverse i

/-- Modelled from the spec: the lookup probe loop of
lh_table_lookup_entry_w_hash (its body is in linkhash.c, which is not under
src/).  Linear probing: at each visited slot, an empty slot stops the probe
with "absent", an occupied slot whose key the equality function accepts is
returned, and any other slot (tombstoned, or occupied with a different key)
is skipped.  The fuel argument bounds the probe to one full cycle. -/
def probe_lookup (tbl : Nat → lh_entry) (size : Nat) (eqf : Nat → Nat → Bool)
    (k : Nat) : Nat → Nat → Option Nat
  | 0, _ => none
  | fuel + 1, n =>
    if (tbl n).k = LH_EMPTY then none
    else if (tbl n).k ≠ LH_FREED ∧ eqf k (tbl n).k = true then some n
    else probe_lookup tbl size eqf k fuel ((n + 1) % size)

/-- Modelled from the spec: the insertion-target probe loop of
lh_table_insert_w_hash (linkhash.c is not under src/).  Returns the first
empty-or-tombstoned slot on the probe sequence, or none if a full cycle
finds no free slot. -/
def probe_free (tbl : Nat → lh_entry) (size : Nat) : Nat → Nat → Option Nat
  | 0, _ => none
  | fuel + 1, n =>
    if isFree (tbl n) = true then some n
    else probe_free tbl size fuel ((n + 1) % size)

/-- Modelled from the spec: lh_table_lookup_entry_w_hash (declared in
src/linkhash.h, body in the absent linkhash.c).  Probes from hash mod
capacity; the result is the slot index of the found entry. -/
def lh_table_lookup_entry_w_hash (t : lh_table) (k : Nat) (h : Nat) :
    Option Nat :=
  probe_lookup t.table t.size t.equal_fn k t.size (h % t.size)

/-- Modelled from the spec: lh_table_lookup_entry computes the hash with
lh_get_hash and delegates to the precomputed-hash variant. -/
def lh_table_lookup_entry (t : lh_table) (k : Nat) : Option Nat :=
  lh_table_lookup_entry_w_hash t k (lh_get_hash t k)

/-- Modelled from the spec: lh_table_lookup_ex returns whether the key was
found together with the found value. -/
def lh_table_lookup_ex (t : lh_table) (k : Nat) : Bool × Option Nat :=
  match lh_table_lookup_entry t k with
  | none => (false, none)
  | some i => (true, some (t.table i).v)

/-- Embeds lh_table_length from src/linkhash.h: the number of entries. -/
def lh_table_length (t : lh_table) : Nat := t.count

/-- Modelled from the spec: the rehash loop of lh_table_resize.  Walks the
existing ordering list (so insertion order is preserved), re-hashes each
entry with the table's hash function and places it in the new slot array
with the same probing algorithm; fails if a full probe cycle finds no free
slot for some entry. -/
def rehash (hf : Nat → Nat) (ns : Nat) :
    List lh_entry → (Nat → lh_entry) → Option ((Nat → lh_entry) × List Nat)
  | [], tbl => some (tbl, [])
  | e :: es, tbl =>
    match probe_free tbl ns ns (hf e.k % ns) with
    | none => none
    | some j =>
      match rehash hf ns es (setSlot tbl j e) with
      | none => none
      | some (tbl', js) => some (tbl', j :: js)

/-- Modelled from the spec: the working part of lh_table_resize, for an
already validated positive new size.  Allocates a fresh all-empty slot
array and re-slots every live entry by walking the ordering list. -/
def lh_table_resize_core (t : lh_table) (ns : Nat) : Option lh_table :=
  match rehash t.hash_fn ns (entryList t) (fun _ => emptySlot) with
  | none => none
  | some (tbl', js) => some { t with size := ns, table := tbl', order := js }

/-- Modelled from the spec: lh_table_resize (declared in src/linkhash.h,
body in the absent linkhash.c).  The new size must be positive; otherwise,
and on rehash failure, a negative value is returned and the table is left
unchanged. -/
def lh_table_resize (t : lh_table) (new_size : Int) : Int × lh_table :=
  if new_size ≤ 0 then (-1, t)
  else
    match lh_table_resize_core t new_size.toNat with
    | none => (-1, t)
    | some t' => (0, t')

/-- Modelled from the spec: fill the free slot found by the insertion probe,
append the new entry at the tail of the ordering list and bump the count;
fail defensively when the probe exhausts a full cycle. -/
def insert_at (t : lh_table) (k v : Nat) (h : Nat) (opts : Nat) :
    Int × lh_table :=
  match probe_free t.table t.size t.size (h % t.size) with
  | none => (-1, t)
  | some j =>
    (0, { t with
          table := setSlot t.table j
            { k := k,
              k_is_constant := (opts &&& JSON_C_OBJECT_ADD_CONSTANT_KEY) != 0,
              v := v },
          count := t.count + 1,
          order := t.order ++ [j] })

/-- Modelled from the spec: the fresh-key insertion path of
lh_table_insert_w_hash.  Grows the table (doubling) when the insert would
push the load factor count over capacity above LH_LOAD_FACTOR = 0.66, that
is when 100 * (count + 1) > 66 * size, then probes for a free slot. -/
def insert_fresh (t : lh_table) (k v : Nat) (h : Nat) (opts : Nat) :
    Int × lh_table :=
  if 100 * (t.count + 1) > 66 * t.size then
    match lh_table_resize_core t (2 * t.size) with
    | none => (-1, t)
    | some t' => insert_at t' k v h opts
  else insert_at t k v h opts

/-- Modelled from the spec: lh_table_insert_w_hash (declared in
src/linkhash.h, body in the absent linkhash.c).  Without the
duplicate-insertion option, a probe that finds an occupied slot with an
equal key overwrites the value in place, keeping the entry's
insertion-order position and the count; otherwise the key is inserted
fresh. -/
def lh_table_insert_w_hash (t : lh_table) (k v : Nat) (h : Nat) (opts : Nat) :
    Int × lh_table :=
  if (opts &&& JSON_C_OBJECT_ADD_KEY_IS_NEW) = 0 then
    match lh_table_lookup_entry_w_hash t k h with
    | some i =>
      (0, { t with table := setSlot t.table i (lh_entry_set_val (t.table i) v) })
    | none => insert_fresh t k v h opts
  else insert_fresh t k v h opts

/-- Modelled from the spec: lh_table_insert computes the hash with
lh_get_hash and delegates to the precomputed-hash variant with no options. -/
def lh_table_insert (t : lh_table) (k v : Nat) : Int × lh_table :=
  lh_table_insert_w_hash t k v (lh_get_hash t k) 0

/-- Modelled from the spec: lh_table_delete_entry (declared in
src/linkhash.h, body in the absent linkhash.c).  Deleting a live entry
unlinks it from the ordering list, marks its slot tombstoned by storing
LH_FREED in the key field, and decrements the count; an invalid handle
reports not-found. -/
def lh_table_delete_entry (t : lh_table) (i : Nat) : Int × lh_table :=
  if i ∈ t.order then
    (0, { t with
          table := setSlot t.table i { t.table i with k := LH_FREED, v := 0 },
          count := t.count - 1,
          order := t.order.erase i })
  else (-1, t)

/-- Modelled from the spec: lh_table_delete (declared in src/linkhash.h,
body in the absent linkhash.c).  Looks the key up first; reports -1 and
leaves the table unchanged when absent, otherwise delegates to
lh_table_delete_entry. -/
def lh_table_delete (t : lh_table) (k : Nat) : Int × lh_table :=
  match lh_table_lookup_entry t k with
  | none => (-1, t)
  | some i => lh_table_delete_entry t i

/-- Modelled from the spec: the table a successful lh_table_new returns,
with every slot of the fresh array holding the LH_EMPTY sentinel. -/
def mk_table (size : Nat) (hf : Nat → Nat) (eqf : Nat → Nat → Bool) :
    lh_table :=
  { size := size, count := 0, table := fun _ => emptySlot, order := [],
    hash_fn := hf, equal_fn := eqf }

/-- Modelled from the spec: lh_table_new validates that the initial size is
positive. -/
def lh_table_new (size : Nat) (hf : Nat → Nat) (eqf : Nat → Nat → Bool) :
    Option lh_table :=
  if size = 0 then none else some (mk_table size hf eqf)

/-- Run a sequence of inserts, failing as soon as one insert fails. -/
def insertAll (t : lh_table) : List (Nat × Nat) → Option lh_table
  | [] => some t
  | kv :: rest =>
    let r := lh_table_insert t kv.1 kv.2
    if r.1 = 0 then insertAll r.2 rest else none

/-- Walk the ordering list from a given entry by repeatedly following
lh_entry_next, with explicit fuel. -/
def iterFrom (t : lh_table) : Nat → Option Nat → List Nat
  | 0, _ => []
  | _ + 1, none => []
  | fuel + 1, some i => i :: iterFrom t fuel (lh_entry_next t i)

/-- The keys seen by the external iteration discipline: start at
lh_table_head and follow lh_entry_next until none. -/
def iterKeys (t : lh_table) : List Nat :=
  (iterFrom t (t.count + 1) (lh_table_head t)).map (fun i => (t.table i).k)

/-- Well-formedness of a table state: positive capacity, count equal to the
length of the ordering list, no slot linked twice, all linked slots in
range, and a slot is occupied exactly when it is on the ordering list. -/
structure WF (t : lh_table) : Prop where
  size_pos : 0 < t.size
  count_eq : t.count = t.order.length
  nodup : t.order.Nodup
  mem_lt : ∀ i ∈ t.order, i < t.size
  occ_iff : ∀ i, i < t.size → (isOccupied (t.table i) = true ↔ i ∈ t.order)

/-- A small concrete well-formed table holding the single entry 9 ↦ 77 in
slot 1 of 4, under the identity hash and numeric equality; used to
instantiate theorems with hypotheses on concrete inputs. -/
def wTableA : lh_table :=
  { size := 4, count := 1,
    table := fun j =>
      if j = 1 then { k := 9, k_is_constant := false, v := 77 } else emptySlot,
    order := [1],
    hash_fn := fun a => a, equal_fn := fun a b => a == b }

/-- A concrete table in a state only reachable by bypassing the load-factor
policy: every slot occupied while the count field claims the table is empty;
used to instantiate theorems with hypotheses on concrete inputs. -/
def wTableFull : lh_table :=
  { size := 2, count := 0,
    table := fun j =>
      if j = 0 then { k := 5, k_is_constant := false, v := 1 }
      else if j = 1 then { k := 6, k_is_constant := false, v := 2 }
      else emptySlot,
    order := [],
    hash_fn := fun a => a, equal_fn := fun a b => a == b }

/-! Basic lemmas about sentinels, slots and modular probing. -/

theorem sentinels_ne : LH_EMPTY ≠ LH_FREED := by decide

theorem setSlot_same (tbl : Nat → lh_entry) (i : Nat) (e : lh_entry) :
    setSlot tbl i e i = e := by
  simp [setSlot]

theorem setSlot_ne (tbl : Nat → lh_entry) (i : Nat) (e : lh_entry) (j : Nat)
    (h : j ≠ i) : setSlot tbl i e j = tbl j := by
  simp [setSlot, h]

theorem isOccupied_iff (e : lh_entry) :
    isOccupied e = true ↔ e.k ≠ LH_EMPTY ∧ e.k ≠ LH_FREED := by
  simp [isOccupied, isFree]

theorem isFree_iff (e : lh_entry) :
    isFree e = true ↔ e.k = LH_EMPTY ∨ e.k = LH_FREED := by
  simp [isFree]

theorem not_occupied_of_free (e : lh_entry) (h : isFree e = true) :
    isOccupied e = false := by
  simp [isOccupied, h]

/-- Injectivity of linear-probe offsets within one cycle. -/
theorem probe_offset_inj (s ns x m : Nat) (hx : x < ns) (hm : m < ns)
    (h : (s + x) % ns = (s + m) % ns) : x = m := by
  have h2 : x ≡ m [MOD ns] := Nat.ModEq.add_left_cancel' s h
  have h3 : x % ns = m % ns := h2
  rwa [Nat.mod_eq_of_lt hx, Nat.mod_eq_of_lt hm] at h3

/-- Every slot index is reached by the probe sequence within one cycle. -/
theorem probe_offset_cover (s ns j : Nat) (hs : s < ns) (hj : j < ns) :
    ∃ m, m < ns ∧ (s + m) % ns = j := by
  have hns : 0 < ns := Nat.lt_of_le_of_lt (Nat.zero_le s) hs
  refine ⟨(j + ns - s) % ns, Nat.mod_lt _ hns, ?_⟩
  have hle : s ≤ j + ns := Nat.le_trans (Nat.le_of_lt hs) (Nat.le_add_left ns j)
  rw [Nat.add_mod_mod, Nat.add_sub_cancel' hle, Nat.add_mod_right,
    Nat.mod_eq_of_lt hj]

/-- Shifting the probe start by one step inside the modulus. -/
theorem probe_shift (size n x : Nat) :
    ((n + 1) % size + x) % size = (n + (x + 1)) % size := by
  rw [Nat.mod_add_mod]
  congr 1
  omega

/-! Characterization of the lookup probe loop. -/

/-- A successful lookup probe found an occupied matching slot, after skipping
a prefix of slots that neither stop the probe (empty) nor match. -/
theorem probe_lookup_some (tbl : Nat → lh_entry) (size : Nat)
    (eqf : Nat → Nat → Bool) (k : Nat) :
    ∀ fuel n j, n < size → probe_lookup tbl size eqf k fuel n = some j →
    ∃ m, m < fuel ∧ j = (n + m) % size ∧
      (∀ x, x < m → (tbl ((n + x) % size)).k ≠ LH_EMPTY ∧
        ¬((tbl ((n + x) % size)).k ≠ LH_FREED ∧
          eqf k (tbl ((n + x) % size)).k = true)) ∧
      isOccupied (tbl j) = true ∧ eqf k (tbl j).k = true := by
  intro fuel
  induction fuel with
  | zero => intro n j _ h; simp [probe_lookup] at h
  | succ fuel ih =>
    intro n j hn h
    have hsz : 0 < size := Nat.lt_of_le_of_lt (Nat.zero_le n) hn
    rw [probe_lookup] at h
    by_cases hE : (tbl n).k = LH_EMPTY
    · simp [hE] at h
    · by_cases hM : (tbl n).k ≠ LH_FREED ∧ eqf k (tbl n).k = true
      · rw [if_neg hE, if_pos hM] at h
        refine ⟨0, Nat.succ_pos fuel, ?_, ?_, ?_, ?_⟩
        · cases h; rw [Nat.add_zero, Nat.mod_eq_of_lt hn]
        · intro x hx; omega
        · cases h
          exact (isOccupied_iff _).mpr ⟨hE, hM.1⟩
        · cases h; exact hM.2
      · rw [if_neg hE, if_neg hM] at h
        obtain ⟨m, hm, hj, hpath, hocc, heq⟩ :=
          ih ((n + 1) % size) j (Nat.mod_lt _ hsz) h
        refine ⟨m + 1, Nat.succ_lt_succ hm, ?_, ?_, hocc, heq⟩
        · rw [hj]; exact probe_shift size n m
        · intro x hx
          match x with
          | 0 =>
            rw [Nat.add_zero, Nat.mod_eq_of_lt hn]
            exact ⟨hE, hM⟩
          | x + 1 =>
            have := hpath x (by omega)
            rwa [Nat.mod_add_mod, Nat.add_assoc, Nat.add_comm 1 x] at this
  
/-- A failed lookup probe saw no occupied matching slot at any offset that is
not cut off by an earlier empty slot. -/
theorem probe_lookup_none (tbl : Nat → lh_entry) (size : Nat)
    (eqf : Nat → Nat → Bool) (k : Nat) :
    ∀ fuel n, n < size → probe_lookup tbl size eqf k fuel n = none →
    ∀ m, m < fuel → (∀ x, x < m → (tbl ((n + x) % size)).k ≠ LH_EMPTY) →
    ¬(isOccupied (tbl ((n + m) % size)) = true ∧
      eqf k (tbl ((n + m) % size)).k = true) := by
  intro fuel
  induction fuel with
  | zero => intro n _ _ m hm; omega
  | succ fuel ih =>
    intro n hn h m hm hpath
    have hsz : 0 < size := Nat.lt_of_le_of_lt (Nat.zero_le n) hn
    rw [probe_lookup] at h
    by_cases hE : (tbl n).k = LH_EMPTY
    · match m with
      | 0 =>
        rw [Nat.add_zero, Nat.mod_eq_of_lt hn]
        intro hc
        rw [isOccupied_iff] at hc
        exact hc.1.1 hE
      | m + 1 =>
        have := hpath 0 (Nat.succ_pos m)
        rw [Nat.add_zero, Nat.mod_eq_of_lt hn] at this
        exact absurd hE this
    · by_cases hM : (tbl n).k ≠ LH_FREED ∧ eqf k (tbl n).k = true
      · rw [if_neg hE, if_pos hM] at h
        exact absurd h (by simp)
      · rw [if_neg hE, if_neg hM] at h
        match m with
        | 0 =>
          rw [Nat.add_zero, Nat.mod_eq_of_lt hn]
          intro hc
          rw [isOccupied_iff] at hc
          exact hM ⟨hc.1.2, hc.2⟩
        | m + 1 =>
          have := ih ((n + 1) % size) (Nat.mod_lt _ hsz) h m (by omega) ?_
          · rwa [Nat.mod_add_mod, Nat.add_assoc, Nat.add_comm 1 m] at this
          · intro x hx
            rw [probe_shift]
            exact hpath (x + 1) (by omega)

/-- The lookup probe finds a matching occupied slot lying behind a run of
occupied, non-matching slots on its probe sequence. -/
theorem probe_lookup_path (tbl : Nat → lh_entry) (size : Nat)
    (eqf : Nat → Nat → Bool) (k : Nat) :
    ∀ m fuel n, n < size → m < fuel →
    (∀ x, x < m → isOccupied (tbl ((n + x) % size)) = true ∧
      eqf k (tbl ((n + x) % size)).k = false) →
    isOccupied (tbl ((n + m) % size)) = true →
    eqf k (tbl ((n + m) % size)).k = true →
    probe_lookup tbl size eqf k fuel n = some ((n + m) % size) := by
  intro m
  induction m with
  | zero =>
    intro fuel n hn hf _ hocc heq
    match fuel with
    | fuel + 1 =>
      have hmod : (n + 0) % size = n := by
        rw [Nat.add_zero]; exact Nat.mod_eq_of_lt hn
      rw [hmod] at hocc heq ⊢
      rw [isOccupied_iff] at hocc
      rw [probe_lookup, if_neg hocc.1, if_pos ⟨hocc.2, heq⟩]
  | succ m ih =>
    intro fuel n hn hf hpath hocc heq
    match fuel with
    | fuel + 1 =>
      have hsz : 0 < size := Nat.lt_of_le_of_lt (Nat.zero_le n) hn
      have h0 := hpath 0 (Nat.succ_pos m)
      rw [Nat.add_zero, Nat.mod_eq_of_lt hn] at h0
      have h0' := (isOccupied_iff _).mp h0.1
      rw [probe_lookup, if_neg h0'.1, if_neg (by simp [h0.2])]
      have := ih fuel ((n + 1) % size) (Nat.mod_lt _ hsz) (by omega) ?_ ?_ ?_
      · rw [this, probe_shift]
      · intro x hx
        rw [probe_shift]
        exact hpath (x + 1) (by omega)
      · rw [probe_shift]; exact hocc
      · rw [probe_shift]; exact heq

/-! Characterization of the free-slot probe loop. -/

/-- A successful insertion probe yields a free slot behind a run of occupied
slots on its probe sequence. -/
theorem probe_free_some (tbl : Nat → lh_entry) (size : Nat) :
    ∀ fuel n j, n < size → probe_free tbl size fuel n = some j →
    ∃ m, m < fuel ∧ j = (n + m) % size ∧
      (∀ x, x < m → isOccupied (tbl ((n + x) % size)) = true) ∧
      isFree (tbl j) = true := by
  intro fuel
  induction fuel with
  | zero => intro n j _ h; simp [probe_free] at h
  | succ fuel ih =>
    intro n j hn h
    have hsz : 0 < size := Nat.lt_of_le_of_lt (Nat.zero_le n) hn
    rw [probe_free] at h
    by_cases hF : isFree (tbl n) = true
    · rw [if_pos hF] at h
      cases h
      refine ⟨0, Nat.succ_pos fuel, ?_, ?_, ?_⟩
      · rw [Nat.add_zero, Nat.mod_eq_of_lt hn]
      · intro x hx; omega
      · exact hF
    · rw [if_neg hF] at h
      obtain ⟨m, hm, hj, hpath, hfr⟩ := ih ((n + 1) % size) j (Nat.mod_lt _ hsz) h
      refine ⟨m + 1, Nat.succ_lt_succ hm, ?_, ?_, hfr⟩
      · rw [hj]; exact probe_shift size n m
      · intro x hx
        match x with
        | 0 =>
          have hmod : (n + 0) % size = n := by
            rw [Nat.add_zero]; exact Nat.mod_eq_of_lt hn
          rw [hmod]
          simp [isOccupied]
          exact Bool.not_eq_true _ ▸ hF
        | x + 1 =>
          have := hpath x (by omega)
          rwa [probe_shift] at this

/-- A failed insertion probe means every slot on a full probe cycle is
occupied. -/
theorem probe_free_none (tbl : Nat → lh_entry) (size : Nat) :
    ∀ fuel n, n < size → probe_free tbl size fuel n = none →
    ∀ m, m < fuel → isOccupied (tbl ((n + m) % size)) = true := by
  intro fuel
  induction fuel with
  | zero => intro n _ _ m hm; omega
  | succ fuel ih =>
    intro n hn h m hm
    have hsz : 0 < size := Nat.lt_of_le_of_lt (Nat.zero_le n) hn
    rw [probe_free] at h
    by_cases hF : isFree (tbl n) = true
    · rw [if_pos hF] at h; exact absurd h (by simp)
    · rw [if_neg hF] at h
      match m with
      | 0 =>
        have hmod : (n + 0) % size = n := by
          rw [Nat.add_zero]; exact Nat.mod_eq_of_lt hn
        rw [hmod]
        simp [isOccupied]
        exact Bool.not_eq_true _ ▸ hF
      | m + 1 =>
        have := ih ((n + 1) % size) (Nat.mod_lt _ hsz) h m (by omega)
        rwa [probe_shift] at this

/-- A full-cycle insertion probe that fails saw every slot of the table
occupied: the probe sequence visits every slot before repeating. -/
theorem probe_free_none_all (tbl : Nat → lh_entry) (size n : Nat)
    (hn : n < size) (h : probe_free tbl size size n = none) :
    ∀ j, j < size → isOccupied (tbl j) = true := by
  intro j hj
  obtain ⟨m, hm, hmj⟩ := probe_offset_cover n size j hn hj
  have := probe_free_none tbl size size n hn h m hm
  rwa [hmj] at this

/-- A full-cycle insertion probe finds a free slot whenever one exists. -/
theorem probe_free_finds (tbl : Nat → lh_entry) (size n j : Nat)
    (hn : n < size) (hj : j < size) (hfr : isFree (tbl j) = true) :
    probe_free tbl size size n ≠ none := by
  intro h
  have := probe_free_none_all tbl size n hn h j hj
  rw [isOccupied, hfr] at this
  simp at this

/-! Table-level corollaries about lookup. -/

/-- A successful lookup returns an in-range occupied slot whose stored key
the table's equality function accepts. -/
theorem lookup_w_hash_some (t : lh_table) (k h j : Nat)
    (hl : lh_table_lookup_entry_w_hash t k h = some j) :
    j < t.size ∧ isOccupied (t.table j) = true ∧
    t.equal_fn k (t.table j).k = true := by
  rw [lh_table_lookup_entry_w_hash] at hl
  rcases Nat.eq_zero_or_pos t.size with hz | hpos
  · rw [hz] at hl; simp [probe_lookup] at hl
  · obtain ⟨m, _, hj, _, hocc, heq⟩ :=
      probe_lookup_some t.table t.size t.equal_fn k t.size (h % t.size) j
        (Nat.mod_lt _ hpos) hl
    exact ⟨hj ▸ Nat.mod_lt _ hpos, hocc, heq⟩

/-- Lookup of a key that the equality function relates to no stored key
fails, for any hash value. -/
theorem lookup_w_hash_none_of_fresh (t : lh_table) (k : Nat) (hWF : WF t)
    (hf : ∀ i ∈ t.order, t.equal_fn k (t.table i).k = false) :
    ∀ h, lh_table_lookup_entry_w_hash t k h = none := by
  intro h
  cases hl : lh_table_lookup_entry_w_hash t k h with
  | none => rfl
  | some j =>
    obtain ⟨hjlt, hocc, heq⟩ := lookup_w_hash_some t k h j hl
    have hj : j ∈ t.order := (hWF.occ_iff j hjlt).mp hocc
    rw [hf j hj] at heq
    exact absurd heq (by simp)

theorem emptySlot_not_occupied : isOccupied emptySlot = false := by decide

/-! The rehash loop of resize. -/

/-- What a successful rehash guarantees: as many placements as entries, all
placements in range, into previously free slots, pairwise distinct; the
placed slots hold exactly the walked entries, in order; untouched slots are
unchanged; and each entry sits at the end of a probe run whose earlier slots
are occupied in the final array. -/
theorem rehash_spec (hf : Nat → Nat) (ns : Nat) (hns : 0 < ns) :
    ∀ (es : List lh_entry) (tbl tbl' : Nat → lh_entry) (js : List Nat),
    rehash hf ns es tbl = some (tbl', js) →
    (∀ e ∈ es, isOccupied e = true) →
    js.length = es.length ∧
    (∀ j ∈ js, j < ns ∧ isFree (tbl j) = true) ∧
    js.Nodup ∧
    js.map tbl' = es ∧
    (∀ i, i ∉ js → tbl' i = tbl i) ∧
    List.Forall₂ (fun (e : lh_entry) (j : Nat) =>
      ∃ m, m < ns ∧ j = (hf e.k % ns + m) % ns ∧
        ∀ x, x < m → isOccupied (tbl' ((hf e.k % ns + x) % ns)) = true) es js := by
  intro es
  induction es with
  | nil =>
    intro tbl tbl' js h _
    rw [rehash] at h
    simp only [Option.some.injEq, Prod.mk.injEq] at h
    obtain ⟨rfl, rfl⟩ := h
    refine ⟨rfl, ?_, List.nodup_nil, rfl, fun i _ => rfl, List.Forall₂.nil⟩
    intro j hj
    simp at hj
  | cons e es ih =>
    intro tbl tbl' js h hocc
    rw [rehash] at h
    split at h
    · simp at h
    · rename_i j hpf
      split at h
      · simp at h
      · rename_i tblR jsR hr
        simp only [Option.some.injEq, Prod.mk.injEq] at h
        obtain ⟨rfl, rfl⟩ := h
        have hoccR : ∀ e' ∈ es, isOccupied e' = true :=
          fun e' he' => hocc e' (List.mem_cons_of_mem _ he')
        obtain ⟨hlen, hjsR, hnd, hmap, hframe, hf2⟩ :=
          ih (setSlot tbl j e) tblR jsR hr hoccR
        have hstart : hf e.k % ns < ns := Nat.mod_lt _ hns
        obtain ⟨m, hm, hjm, hpath, hfr⟩ :=
          probe_free_some tbl ns ns (hf e.k % ns) j hstart hpf
        have hjlt : j < ns := hjm ▸ Nat.mod_lt _ hns
        have heocc : isOccupied e = true := hocc e (List.mem_cons_self _ _)
        have hjnot : j ∉ jsR := by
          intro hji
          have hfree : isFree e = true := by
            have := (hjsR j hji).2
            rwa [setSlot_same] at this
          rw [isOccupied, hfree] at heocc
          simp at heocc
        have hjsR' : ∀ j' ∈ jsR, j' < ns ∧ isFree (tbl j') = true := by
          intro j' hj'
          have hne : j' ≠ j := fun hh => hjnot (hh ▸ hj')
          have := (hjsR j' hj').2
          rw [setSlot_ne _ _ _ _ hne] at this
          exact ⟨(hjsR j' hj').1, this⟩
        have htblRj : tblR j = e := by
          rw [hframe j hjnot, setSlot_same]
        have hmono : ∀ p, isOccupied (tbl p) = true →
            isOccupied (tblR p) = true := by
          intro p hp
          by_cases hpj : p ∈ jsR
          · have : tblR p ∈ es := by
              rw [← hmap]; exact List.mem_map_of_mem _ hpj
            exact hoccR _ this
          · rw [hframe p hpj]
            by_cases hpe : p = j
            · subst hpe; rw [setSlot_same]; exact heocc
            · rw [setSlot_ne _ _ _ _ hpe]; exact hp
        refine ⟨?_, ?_, ?_, ?_, ?_, ?_⟩
        · simp [hlen]
        · intro j0 hj0
          rcases List.mem_cons.mp hj0 with rfl | hj0'
          · exact ⟨hjlt, hfr⟩
          · exact hjsR' j0 hj0'
        · exact List.nodup_cons.mpr ⟨hjnot, hnd⟩
        · simp [htblRj, hmap]
        · intro i hi
          have hine : i ≠ j := fun hh => hi (hh ▸ List.mem_cons_self _ _)
          have hinotR : i ∉ jsR := fun hh => hi (List.mem_cons_of_mem _ hh)
          rw [hframe i hinotR, setSlot_ne _ _ _ _ hine]
        · refine List.Forall₂.cons ⟨m, hm, hjm, ?_⟩ hf2
          intro x hx
          exact hmono _ (hpath x hx)

/-- What a successful resize guarantees: well-formedness, the requested
capacity, unchanged count, the same entries in the same insertion order,
unchanged callbacks, and, for each entry, a probe run from its hash that
reaches its new slot over occupied slots only. -/
theorem resize_core_spec (t : lh_table) (ns : Nat) (t' : lh_table)
    (hWF : WF t) (hns : 0 < ns) (h : lh_table_resize_core t ns = some t') :
    WF t' ∧ t'.size = ns ∧ t'.count = t.count ∧
    entryList t' = entryList t ∧
    t'.hash_fn = t.hash_fn ∧ t'.equal_fn = t.equal_fn ∧
    List.Forall₂ (fun (e : lh_entry) (j : Nat) =>
      ∃ m, m < ns ∧ j = (t.hash_fn e.k % ns + m) % ns ∧
        ∀ x, x < m →
          isOccupied (t'.table ((t.hash_fn e.k % ns + x) % ns)) = true)
      (entryList t) t'.order := by
  rw [lh_table_resize_core] at h
  cases hr : rehash t.hash_fn ns (entryList t) (fun _ => emptySlot) with
  | none => rw [hr] at h; simp at h
  | some p =>
    obtain ⟨tbl', js⟩ := p
    rw [hr] at h
    simp at h
    have hoccAll : ∀ e ∈ entryList t, isOccupied e = true := by
      intro e he
      rw [entryList] at he
      obtain ⟨i, hi, rfl⟩ := List.mem_map.mp he
      exact (hWF.occ_iff i (hWF.mem_lt i hi)).mpr hi
    obtain ⟨hlen, hjs, hnd, hmap, hframe, hf2⟩ :=
      rehash_spec t.hash_fn ns hns (entryList t) (fun _ => emptySlot) tbl' js
        hr hoccAll
    subst h
    refine ⟨?_, rfl, rfl, ?_, rfl, rfl, ?_⟩
    · refine ⟨hns, ?_, hnd, fun i hi => (hjs i hi).1, ?_⟩
      · dsimp only
        simp only [hlen, entryList, List.length_map]
        exact hWF.count_eq
      · intro i hilt
        dsimp only at hilt ⊢
        constructor
        · intro hocc
          by_contra hmem
          rw [hframe i hmem] at hocc
          rw [emptySlot_not_occupied] at hocc
          exact absurd hocc (by simp)
        · intro hmem
          have : tbl' i ∈ entryList t := by
            rw [← hmap]; exact List.mem_map_of_mem _ hmem
          exact hoccAll _ this
    · exact hmap
    · exact hf2

/-! Insertion. -/

/-- What placing a fresh key at the slot found by the insertion probe
guarantees: well-formedness is preserved, the count grows by one, and the
new entry is appended at the tail of the insertion order. -/
theorem insert_at_spec (t : lh_table) (k v hsh opts : Nat) (t2 : lh_table)
    (hWF : WF t) (hkE : k ≠ LH_EMPTY) (hkF : k ≠ LH_FREED)
    (hins : insert_at t k v hsh opts = (0, t2)) :
    WF t2 ∧ t2.count = t.count + 1 ∧
    entryList t2 = entryList t ++
      [{ k := k, k_is_constant := (opts &&& JSON_C_OBJECT_ADD_CONSTANT_KEY) != 0,
         v := v }] ∧
    t2.hash_fn = t.hash_fn ∧ t2.equal_fn = t.equal_fn ∧ t2.size = t.size ∧
    ∃ j, j < t.size ∧ t2.order = t.order ++ [j] := by
  rw [insert_at] at hins
  split at hins
  · simp at hins
  · rename_i j hpf
    simp only [Prod.mk.injEq] at hins
    obtain ⟨-, rfl⟩ := hins
    obtain ⟨m, hm, hjm, hpath, hfr⟩ :=
      probe_free_some t.table t.size t.size (hsh % t.size) j
        (Nat.mod_lt _ hWF.size_pos) hpf
    have hjlt : j < t.size := hjm ▸ Nat.mod_lt _ hWF.size_pos
    have hjnot : j ∉ t.order := by
      intro hj
      have := (hWF.occ_iff j hjlt).mpr hj
      rw [isOccupied, hfr] at this
      simp at this
    have hocce : isOccupied
        { k := k,
          k_is_constant := (opts &&& JSON_C_OBJECT_ADD_CONSTANT_KEY) != 0,
          v := v } = true :=
      (isOccupied_iff _).mpr ⟨hkE, hkF⟩
    refine ⟨⟨hWF.size_pos, ?_, ?_, ?_, ?_⟩, rfl, ?_, rfl, rfl, rfl,
      ⟨j, hjlt, rfl⟩⟩
    · dsimp only
      rw [List.length_append, List.length_singleton, hWF.count_eq]
    · dsimp only
      refine List.Nodup.append hWF.nodup (List.nodup_singleton j) ?_
      intro a ha hb
      rw [List.mem_singleton] at hb
      subst hb
      exact hjnot ha
    · intro i hi
      dsimp only at hi ⊢
      rcases List.mem_append.mp hi with hi' | hi'
      · exact hWF.mem_lt i hi'
      · rw [List.mem_singleton] at hi'
        subst hi'
        exact hjlt
    · intro i hilt
      dsimp only at hilt ⊢
      by_cases hij : i = j
      · subst hij
        rw [setSlot_same, hocce]
        simp
      · rw [setSlot_ne _ _ _ _ hij]
        rw [hWF.occ_iff i hilt]
        simp [List.mem_append, List.mem_singleton, hij]
    · dsimp only [entryList]
      rw [List.map_append]
      congr 1
      · exact List.map_congr_left fun i hi =>
          setSlot_ne _ _ _ _ (fun hh => hjnot (hh ▸ hi))
      · rw [List.map_singleton, setSlot_same]

/-- What the fresh-key insertion path guarantees, through the optional
load-factor-triggered resize. -/
theorem insert_fresh_spec (t : lh_table) (k v hsh opts : Nat) (t2 : lh_table)
    (hWF : WF t) (hkE : k ≠ LH_EMPTY) (hkF : k ≠ LH_FREED)
    (hins : insert_fresh t k v hsh opts = (0, t2)) :
    WF t2 ∧ t2.count = t.count + 1 ∧
    entryList t2 = entryList t ++
      [{ k := k, k_is_constant := (opts &&& JSON_C_OBJECT_ADD_CONSTANT_KEY) != 0,
         v := v }] ∧
    t2.hash_fn = t.hash_fn ∧ t2.equal_fn = t.equal_fn ∧ t.size ≤ t2.size := by
  rw [insert_fresh] at hins
  split at hins
  · split at hins
    · simp at hins
    · rename_i t1 hrc
      have h2s : 0 < 2 * t.size := by
        have := hWF.size_pos; omega
      obtain ⟨hWF1, hsz1, hcnt1, hel1, hh1, he1, -⟩ :=
        resize_core_spec t (2 * t.size) t1 hWF h2s hrc
      obtain ⟨hWF2, hcnt2, hel2, hh2, heq2, hsz2, -⟩ :=
        insert_at_spec t1 k v hsh opts t2 hWF1 hkE hkF hins
      refine ⟨hWF2, by rw [hcnt2, hcnt1], ?_, hh2.trans hh1, heq2.trans he1, ?_⟩
      · rw [hel2, hel1]
      · rw [hsz2, hsz1]
        have := hWF.size_pos
        omega
  · obtain ⟨hWF2, hcnt2, hel2, hh2, heq2, hsz2, -⟩ :=
      insert_at_spec t k v hsh opts t2 hWF hkE hkF hins
    exact ⟨hWF2, hcnt2, hel2, hh2, heq2, Nat.le_of_eq hsz2.symm⟩

/-- What inserting a key that is not yet present guarantees: the entry is
appended at the tail with the given key and value, and the count grows by
one. -/
theorem insert_w_hash_fresh_spec (t : lh_table) (k v hsh opts : Nat)
    (t2 : lh_table)
    (hWF : WF t) (hkE : k ≠ LH_EMPTY) (hkF : k ≠ LH_FREED)
    (hlk : lh_table_lookup_entry_w_hash t k hsh = none)
    (hins : lh_table_insert_w_hash t k v hsh opts = (0, t2)) :
    WF t2 ∧ t2.count = t.count + 1 ∧
    entryList t2 = entryList t ++
      [{ k := k, k_is_constant := (opts &&& JSON_C_OBJECT_ADD_CONSTANT_KEY) != 0,
         v := v }] ∧
    t2.hash_fn = t.hash_fn ∧ t2.equal_fn = t.equal_fn ∧ t.size ≤ t2.size := by
  rw [lh_table_insert_w_hash] at hins
  split at hins
  · split at hins
    · rename_i i hlk2
      rw [hlk] at hlk2
      simp at hlk2
    · exact insert_fresh_spec t k v hsh opts t2 hWF hkE hkF hins
  · exact insert_fresh_spec t k v hsh opts t2 hWF hkE hkF hins

/-- The keys appended by a fresh insert, at the keyList level. -/
theorem insert_w_hash_fresh_keys (t : lh_table) (k v hsh opts : Nat)
    (t2 : lh_table)
    (hWF : WF t) (hkE : k ≠ LH_EMPTY) (hkF : k ≠ LH_FREED)
    (hlk : lh_table_lookup_entry_w_hash t k hsh = none)
    (hins : lh_table_insert_w_hash t k v hsh opts = (0, t2)) :
    keyList t2 = keyList t ++ [k] := by
  obtain ⟨-, -, hel, -, -, -⟩ :=
    insert_w_hash_fresh_spec t k v hsh opts t2 hWF hkE hkF hlk hins
  rw [keyList, hel, List.map_append, keyList]
  rfl

/-! Deletion. -/

/-- What deleting a live entry guarantees: result 0, the slot tombstoned,
the entry spliced out of the ordering list, the count decremented, all
other slots untouched, and well-formedness preserved. -/
theorem delete_entry_spec (t : lh_table) (i : Nat) (hWF : WF t)
    (hi : i ∈ t.order) :
    (lh_table_delete_entry t i).1 = 0 ∧
    (lh_table_delete_entry t i).2.count = t.count - 1 ∧
    (lh_table_delete_entry t i).2.order = t.order.erase i ∧
    ((lh_table_delete_entry t i).2.table i).k = LH_FREED ∧
    (∀ j, j ≠ i → (lh_table_delete_entry t i).2.table j = t.table j) ∧
    WF (lh_table_delete_entry t i).2 ∧
    (lh_table_delete_entry t i).2.hash_fn = t.hash_fn ∧
    (lh_table_delete_entry t i).2.equal_fn = t.equal_fn ∧
    (lh_table_delete_entry t i).2.size = t.size := by
  rw [lh_table_delete_entry, if_pos hi]
  refine ⟨rfl, rfl, rfl, ?_, ?_, ?_, rfl, rfl, rfl⟩
  · dsimp only
    rw [setSlot_same]
  · intro j hj
    dsimp only
    rw [setSlot_ne _ _ _ _ hj]
  · refine ⟨hWF.size_pos, ?_, ?_, ?_, ?_⟩
    · dsimp only
      rw [List.length_erase_of_mem hi, hWF.count_eq]
    · exact hWF.nodup.erase i
    · intro j hj
      dsimp only at hj
      exact hWF.mem_lt j (List.erase_subset _ _ hj)
    · intro j hjlt
      dsimp only at hjlt ⊢
      by_cases hji : j = i
      · subst hji
        rw [setSlot_same]
        constructor
        · intro hocc
          rw [isOccupied_iff] at hocc
          exact absurd rfl hocc.2
        · intro hmem
          exact absurd hmem (hWF.nodup.not_mem_erase)
      · rw [setSlot_ne _ _ _ _ hji, hWF.occ_iff j hjlt,
          List.mem_erase_of_ne hji]

/-! Iteration: following lh_entry_next from lh_table_head walks the
ordering list. -/

theorem listSucc_append (pre : List Nat) (b : Nat) (rest : List Nat)
    (hb : b ∉ pre) : listSucc (pre ++ b :: rest) b = rest.head? := by
  induction pre with
  | nil => simp [listSucc]
  | cons a pre ih =>
    have hab : a ≠ b := fun hh => hb (hh ▸ List.mem_cons_self _ _)
    rw [List.cons_append, listSucc, if_neg hab]
    exact ih fun hh => hb (List.mem_cons_of_mem _ hh)

theorem iterFrom_suffix (t : lh_table) (hnd : t.order.Nodup) :
    ∀ (suf pre : List Nat) (fuel : Nat), t.order = pre ++ suf →
    suf.length ≤ fuel → iterFrom t fuel suf.head? = suf := by
  intro suf
  induction suf with
  | nil =>
    intro pre fuel _ _
    match fuel with
    | 0 => rfl
    | fuel + 1 => rfl
  | cons b rest ih =>
    intro pre fuel horder hfuel
    match fuel with
    | fuel + 1 =>
      have hb : b ∉ pre := by
        have := horder ▸ hnd
        rw [List.nodup_middle] at this
        intro hmem
        exact (List.nodup_cons.mp this).1 (List.mem_append.mpr (Or.inl hmem))
      rw [List.head?_cons, iterFrom, lh_entry_next, horder,
        listSucc_append pre b rest hb]
      have : t.order = (pre ++ [b]) ++ rest := by
        rw [horder, List.append_assoc]; rfl
      rw [ih (pre ++ [b]) fuel this (by simpa using Nat.le_of_succ_le_succ hfuel)]

/-- For a well-formed table, external iteration from the head yields exactly
the keys in insertion order. -/
theorem iterKeys_eq (t : lh_table) (hWF : WF t) : iterKeys t = keyList t := by
  rw [iterKeys, lh_table_head]
  rw [iterFrom_suffix t hWF.nodup t.order [] (t.count + 1) rfl
    (by rw [hWF.count_eq]; omega)]
  rw [keyList, entryList, List.map_map]
  rfl

/-- A well-formed table never has more entries than slots. -/
theorem count_le_size (t : lh_table) (hWF : WF t) : t.count ≤ t.size := by
  rw [hWF.count_eq]
  have hsub : t.order ⊆ List.range t.size := by
    intro i hi
    rw [List.mem_range]
    exact hWF.mem_lt i hi
  have := List.Subperm.length_le (List.subperm_of_subset hWF.nodup hsub)
  simpa using this

/-! Sequences of fresh inserts preserve order. -/

theorem insertAll_spec :
    ∀ (kvs : List (Nat × Nat)) (t t' : lh_table),
    WF t →
    (∀ kv ∈ kvs, kv.1 ≠ LH_EMPTY ∧ kv.1 ≠ LH_FREED) →
    (∀ kv ∈ kvs, ∀ x ∈ keyList t, t.equal_fn kv.1 x = false) →
    List.Pairwise (fun a b => t.equal_fn b.1 a.1 = false) kvs →
    insertAll t kvs = some t' →
    WF t' ∧ keyList t' = keyList t ++ kvs.map Prod.fst ∧
    t'.equal_fn = t.equal_fn ∧ t'.hash_fn = t.hash_fn := by
  intro kvs
  induction kvs with
  | nil =>
    intro t t' hWF _ _ _ hins
    rw [insertAll] at hins
    simp only [Option.some.injEq] at hins
    subst hins
    exact ⟨hWF, by simp, rfl, rfl⟩
  | cons kv rest ih =>
    intro t t' hWF hsent hfresh hpair hins
    rw [insertAll] at hins
    by_cases hr : (lh_table_insert t kv.1 kv.2).1 = 0
    · rw [if_pos hr] at hins
      have hkv := hsent kv (List.mem_cons_self _ _)
      have hlk : lh_table_lookup_entry_w_hash t kv.1 (lh_get_hash t kv.1) =
          none := by
        apply lookup_w_hash_none_of_fresh t kv.1 hWF
        intro i hi
        exact hfresh kv (List.mem_cons_self _ _) ((t.table i).k)
          (List.mem_map_of_mem _ (List.mem_map_of_mem _ hi))
      have hins1 : lh_table_insert_w_hash t kv.1 kv.2 (lh_get_hash t kv.1) 0 =
          (0, (lh_table_insert t kv.1 kv.2).2) := by
        rw [← lh_table_insert]
        exact Prod.ext hr rfl
      obtain ⟨hWF1, -, hel1, hh1, he1, -⟩ :=
        insert_w_hash_fresh_spec t kv.1 kv.2 (lh_get_hash t kv.1) 0
          (lh_table_insert t kv.1 kv.2).2 hWF hkv.1 hkv.2 hlk hins1
      have hkl1 : keyList (lh_table_insert t kv.1 kv.2).2 =
          keyList t ++ [kv.1] :=
        insert_w_hash_fresh_keys t kv.1 kv.2 (lh_get_hash t kv.1) 0
          (lh_table_insert t kv.1 kv.2).2 hWF hkv.1 hkv.2 hlk hins1
      obtain ⟨hWF', hkl', he', hh'⟩ :=
        ih (lh_table_insert t kv.1 kv.2).2 t' hWF1
          (fun kv' h' => hsent kv' (List.mem_cons_of_mem _ h'))
          (by
            intro kv' h' x hx
            rw [hkl1, List.mem_append] at hx
            rw [he1]
            rcases hx with hx | hx
            · exact hfresh kv' (List.mem_cons_of_mem _ h') x hx
            · rw [List.mem_singleton] at hx
              subst hx
              exact (List.pairwise_cons.mp hpair).1 kv' h')
          (by
            rw [he1]
            exact (List.pairwise_cons.mp hpair).2)
          hins
      refine ⟨hWF', ?_, he'.trans he1, hh'.trans hh1⟩
      rw [hkl', hkl1, List.append_assoc]
      rfl
    · rw [if_neg hr] at hins
      simp at hins

/-- A fresh table is well-formed as soon as its capacity is positive. -/
theorem mk_table_WF (n : Nat) (hf : Nat → Nat) (eqf : Nat → Nat → Bool)
    (hn : 0 < n) : WF (mk_table n hf eqf) := by
  refine ⟨hn, rfl, List.nodup_nil, ?_, ?_⟩
  · intro i hi
    simp [mk_table] at hi
  · intro i _
    rw [mk_table]
    dsimp only
    rw [emptySlot_not_occupied]
    simp [mk_table]

/-! Full-table probing helpers. -/

/-- In a table whose probed cycle is entirely occupied with keys the equality
function rejects, the lookup probe fails by fuel exhaustion. -/
theorem probe_lookup_none_full (tbl : Nat → lh_entry) (size : Nat)
    (eqf : Nat → Nat → Bool) (k : Nat)
    (hfull : ∀ j, j < size → isOccupied (tbl j) = true)
    (hnm : ∀ j, j < size → eqf k (tbl j).k = false) :
    ∀ fuel n, n < size → probe_lookup tbl size eqf k fuel n = none := by
  intro fuel
  induction fuel with
  | zero => intro n _; rfl
  | succ fuel ih =>
    intro n hn
    have hsz : 0 < size := Nat.lt_of_le_of_lt (Nat.zero_le n) hn
    have hocc := (isOccupied_iff _).mp (hfull n hn)
    rw [probe_lookup, if_neg hocc.1, if_neg (by simp [hnm n hn])]
    exact ih ((n + 1) % size) (Nat.mod_lt _ hsz)

/-- In a fully occupied table the insertion probe fails by fuel
exhaustion. -/
theorem probe_free_none_full (tbl : Nat → lh_entry) (size : Nat)
    (hfull : ∀ j, j < size → isOccupied (tbl j) = true) :
    ∀ fuel n, n < size → probe_free tbl size fuel n = none := by
  intro fuel
  induction fuel with
  | zero => intro n _; rfl
  | succ fuel ih =>
    intro n hn
    have hsz : 0 < size := Nat.lt_of_le_of_lt (Nat.zero_le n) hn
    have hocc := hfull n hn
    rw [probe_free, if_neg ?_]
    · exact ih ((n + 1) % size) (Nat.mod_lt _ hsz)
    · rw [isOccupied] at hocc
      intro hc
      rw [hc] at hocc
      simp at hocc

/-- The count and capacity bookkeeping of a successful slot placement. -/
theorem insert_at_count_size (t : lh_table) (k v hsh opts : Nat)
    (t2 : lh_table) (hins : insert_at t k v hsh opts = (0, t2)) :
    t2.count = t.count + 1 ∧ t2.size = t.size := by
  rw [insert_at] at hins
  split at hins
  · simp at hins
  · simp only [Prod.mk.injEq] at hins
    obtain ⟨-, rfl⟩ := hins
    exact ⟨rfl, rfl⟩

/-! The claims. -/

/-- C4: the precomputed-hash entry points are observationally equivalent to
the plain ones: lh_table_lookup_entry computes lh_get_hash and delegates to
lh_table_lookup_entry_w_hash, and lh_table_insert computes lh_get_hash and
delegates to lh_table_insert_w_hash with no options, so the results agree
definitionally. -/
theorem C4_hash_precompute_equivalence (t : lh_table) (k v : Nat) :
    lh_table_lookup_entry t k =
      lh_table_lookup_entry_w_hash t k (lh_get_hash t k) ∧
    lh_table_insert t k v =
      lh_table_insert_w_hash t k v (lh_get_hash t k) 0 :=
  ⟨rfl, rfl⟩

/-- C10: slot occupancy is encoded entirely in the key field through the
out-of-band sentinel values LH_EMPTY = (void *)-1 and LH_FREED = (void *)-2:
an entry whose key equals a sentinel is classified free, occupancy holds
exactly when the key differs from both sentinels, and concretely inserting
the key LH_EMPTY (resp. LH_FREED) succeeds yet leaves the entry invisible to
lookup, because its slot is indistinguishable from an empty (resp.
tombstoned) slot. -/
theorem C10_sentinel_key_encoding :
    (∀ (c : Bool) (v : Nat),
      isFree { k := LH_EMPTY, k_is_constant := c, v := v } = true ∧
      isFree { k := LH_FREED, k_is_constant := c, v := v } = true ∧
      isOccupied { k := LH_EMPTY, k_is_constant := c, v := v } = false ∧
      isOccupied { k := LH_FREED, k_is_constant := c, v := v } = false) ∧
    (∀ e : lh_entry, isOccupied e = true ↔ e.k ≠ LH_EMPTY ∧ e.k ≠ LH_FREED) ∧
    ((lh_table_insert (mk_table 4 (fun a => a) (fun a b => a == b))
        LH_EMPTY 5).1 = 0 ∧
      lh_table_lookup_entry
        (lh_table_insert (mk_table 4 (fun a => a) (fun a b => a == b))
          LH_EMPTY 5).2 LH_EMPTY = none ∧
      lh_table_length
        (lh_table_insert (mk_table 4 (fun a => a) (fun a b => a == b))
          LH_EMPTY 5).2 = 1) ∧
    ((lh_table_insert (mk_table 4 (fun a => a) (fun a b => a == b))
        LH_FREED 5).1 = 0 ∧
      lh_table_lookup_entry
        (lh_table_insert (mk_table 4 (fun a => a) (fun a b => a == b))
          LH_FREED 5).2 LH_FREED = none ∧
      lh_table_length
        (lh_table_insert (mk_table 4 (fun a => a) (fun a b => a == b))
          LH_FREED 5).2 = 1) := by
  refine ⟨?_, isOccupied_iff, by decide, by decide⟩
  intro c v
  have h1 : isFree { k := LH_EMPTY, k_is_constant := c, v := v } = true :=
    (isFree_iff _).mpr (Or.inl rfl)
  have h2 : isFree { k := LH_FREED, k_is_constant := c, v := v } = true :=
    (isFree_iff _).mpr (Or.inr rfl)
  exact ⟨h1, h2, not_occupied_of_free _ h1, not_occupied_of_free _ h2⟩

/-- C3: when the probe finds the key already present, insert without the
duplicate-insertion option overwrites in place: the value is replaced at the
found slot, the key, ordering list, count, and all other slots are
unchanged; concretely, inserting the same key twice yields length 1 and the
second value, at the position of the first insert relative to other keys. -/
theorem C3_overwrite_in_place (t : lh_table) (k v hsh i : Nat)
    (hlk : lh_table_lookup_entry_w_hash t k hsh = some i) :
    lh_table_insert_w_hash t k v hsh 0 =
      (0, { t with
            table := setSlot t.table i (lh_entry_set_val (t.table i) v) }) ∧
    (lh_table_insert_w_hash t k v hsh 0).2.count = t.count ∧
    (lh_table_insert_w_hash t k v hsh 0).2.order = t.order ∧
    keyList (lh_table_insert_w_hash t k v hsh 0).2 = keyList t ∧
    ((lh_table_insert_w_hash t k v hsh 0).2.table i).v = v ∧
    ((lh_table_insert_w_hash t k v hsh 0).2.table i).k = (t.table i).k ∧
    (∀ j, j ≠ i → (lh_table_insert_w_hash t k v hsh 0).2.table j = t.table j) ∧
    (let u1 := (lh_table_insert (lh_table_insert (lh_table_insert
        (mk_table 4 (fun a => a) (fun a b => a == b)) 1 10).2 2 20).2 3 30).2;
     let u2 := (lh_table_insert u1 2 99).2;
     lh_table_length u2 = 3 ∧ iterKeys u2 = [1, 2, 3] ∧
     lh_table_lookup_ex u2 2 = (true, some 99)) ∧
    (let w := (lh_table_insert (lh_table_insert
        (mk_table 4 (fun a => a) (fun a b => a == b)) 7 1).2 7 2).2;
     lh_table_length w = 1 ∧ lh_table_lookup_ex w 7 = (true, some 2)) := by
  have hmain : lh_table_insert_w_hash t k v hsh 0 =
      (0, { t with
            table := setSlot t.table i (lh_entry_set_val (t.table i) v) }) := by
    rw [lh_table_insert_w_hash,
      if_pos (by decide : (0 &&& JSON_C_OBJECT_ADD_KEY_IS_NEW) = 0), hlk]
  refine ⟨hmain, ?_, ?_, ?_, ?_, ?_, ?_, by decide, by decide⟩
  · rw [hmain]
  · rw [hmain]
  · rw [hmain]
    dsimp only
    rw [keyList, keyList, entryList, entryList]
    dsimp only
    rw [List.map_map, List.map_map]
    apply List.map_congr_left
    intro a _
    by_cases ha : a = i
    · subst ha
      simp [Function.comp, setSlot_same, lh_entry_set_val]
    · simp [Function.comp, setSlot_ne _ _ _ _ ha]
  · rw [hmain]
    dsimp only
    rw [setSlot_same]
    rfl
  · rw [hmain]
    dsimp only
    rw [setSlot_same]
    rfl
  · intro j hj
    rw [hmain]
    dsimp only
    rw [setSlot_ne _ _ _ _ hj]

/-- C3 witness at a concrete table: overwriting the present key 9 stores the
new value 55 in its slot. -/
theorem C3_overwrite_in_place_witness :
    ((lh_table_insert_w_hash wTableA 9 55 9 0).2.table 1).v = 55 :=
  (C3_overwrite_in_place wTableA 9 55 9 1 (by decide)).2.2.2.2.1

/-- C8: delete-by-key performs the lookup first; an absent key yields the
distinct not-found result -1 with the table completely unchanged, while a
present key delegates to delete-by-entry, which returns 0, tombstones the
slot, decrements the positive count by one and splices the entry out of the
ordering list. -/
theorem C8_delete_by_key (t : lh_table) (k : Nat) (hWF : WF t) :
    (lh_table_lookup_entry t k = none → lh_table_delete t k = (-1, t)) ∧
    (∀ i, lh_table_lookup_entry t k = some i →
      lh_table_delete t k = lh_table_delete_entry t i ∧
      (lh_table_delete_entry t i).1 = 0 ∧
      ((lh_table_delete_entry t i).2.table i).k = LH_FREED ∧
      0 < t.count ∧
      (lh_table_delete_entry t i).2.count = t.count - 1 ∧
      (lh_table_delete_entry t i).2.order = t.order.erase i) := by
  constructor
  · intro hn
    rw [lh_table_delete, hn]
  · intro i hs
    have hmem : i ∈ t.order := by
      rw [lh_table_lookup_entry] at hs
      obtain ⟨hlt, hocc, -⟩ := lookup_w_hash_some t k _ i hs
      exact (hWF.occ_iff i hlt).mp hocc
    obtain ⟨h0, hcnt, hord, hfr, -, -, -, -, -⟩ := delete_entry_spec t i hWF hmem
    refine ⟨by rw [lh_table_delete, hs], h0, hfr, ?_, hcnt, hord⟩
    rw [hWF.count_eq]
    exact List.length_pos_of_mem hmem

/-- C8 witness at a concrete table: deleting the absent key 5 returns -1 and
leaves the table untouched. -/
theorem C8_delete_by_key_witness :
    lh_table_delete wTableA 5 = (-1, wTableA) :=
  (C8_delete_by_key wTableA 5
    ⟨by decide, by decide, by decide, by decide, by decide⟩).1 (by decide)

/-- C1: lookup probes from hash mod capacity; at each visited slot an empty
slot stops the probe reporting the key absent, an occupied slot accepted by
the equality function is returned, and tombstoned slots are neither a match
nor a stop condition: a table whose slot i is tombstoned behaves for lookup
exactly like the same table with slot i occupied by a non-matching key, and
in the concrete insert A, delete A, insert B scenario the colliding key C
keeps being found across the tombstone. -/
theorem C1_lookup_probing_tombstones
    (tbl tbl' : Nat → lh_entry) (size : Nat) (eqf : Nat → Nat → Bool)
    (k i : Nat)
    (hsame : ∀ j, j ≠ i → tbl j = tbl' j)
    (hocc : isOccupied (tbl i) = true)
    (hnm : eqf k (tbl i).k = false)
    (hfr : (tbl' i).k = LH_FREED) :
    (∀ fuel n, probe_lookup tbl size eqf k fuel n =
      probe_lookup tbl' size eqf k fuel n) ∧
    (∀ (t : lh_table) (h : Nat),
      ((t.table (h % t.size)).k = LH_EMPTY →
        lh_table_lookup_entry_w_hash t k h = none) ∧
      (0 < t.size → isOccupied (t.table (h % t.size)) = true →
        t.equal_fn k (t.table (h % t.size)).k = true →
        lh_table_lookup_entry_w_hash t k h = some (h % t.size))) ∧
    (let t0 := mk_table 8 (fun a => a) (fun a b => a == b);
     let s2 := (lh_table_insert (lh_table_insert t0 10 100).2 18 200).2;
     let s3 := (lh_table_delete s2 10).2;
     let s4 := (lh_table_insert s3 26 300).2;
     (s3.table 2).k = LH_FREED ∧
     lh_table_lookup_entry s3 18 = some 3 ∧
     lh_table_lookup_entry s4 18 = some 3) := by
  refine ⟨?_, ?_, by decide⟩
  · intro fuel
    induction fuel with
    | zero => intro n; rfl
    | succ fuel ih =>
      intro n
      by_cases hni : n = i
      · subst hni
        have h1 := (isOccupied_iff _).mp hocc
        have h2 : ¬((tbl' n).k = LH_EMPTY) := by
          rw [hfr]; decide
        rw [probe_lookup, probe_lookup, if_neg h1.1, if_neg h2,
          if_neg (by simp [hnm]), if_neg (by simp [hfr])]
        exact ih ((n + 1) % size)
      · rw [probe_lookup, probe_lookup, hsame n hni]
        split
        · rfl
        · split
          · rfl
          · exact ih ((n + 1) % size)
  · intro t h
    constructor
    · intro he
      rw [lh_table_lookup_entry_w_hash]
      rcases Nat.eq_zero_or_pos t.size with hz | hpos
      · rw [hz]; rfl
      · obtain ⟨m, hm⟩ : ∃ m, t.size = m + 1 := ⟨t.size - 1, by omega⟩
        rw [hm] at he ⊢
        rw [probe_lookup, if_pos he]
    · intro hpos ho hq
      rw [lh_table_lookup_entry_w_hash]
      obtain ⟨m, hm⟩ : ∃ m, t.size = m + 1 := ⟨t.size - 1, by omega⟩
      rw [hm] at ho hq ⊢
      have h1 := (isOccupied_iff _).mp ho
      rw [probe_lookup, if_neg h1.1, if_pos ⟨h1.2, hq⟩]

/-- C1 witness: tombstone transparency instantiated at two concrete slot
arrays differing only in slot 0, once occupied by the non-matching key 5 and
once tombstoned. -/
theorem C1_lookup_probing_tombstones_witness :
    probe_lookup
      (fun j => if j = 0 then { k := 5, k_is_constant := false, v := 1 }
        else emptySlot) 4 (fun a b => a == b) 7 4 0 =
    probe_lookup
      (fun j => if j = 0 then { k := LH_FREED, k_is_constant := false, v := 1 }
        else emptySlot) 4 (fun a b => a == b) 7 4 0 :=
  (C1_lookup_probing_tombstones
    (fun j => if j = 0 then { k := 5, k_is_constant := false, v := 1 }
      else emptySlot)
    (fun j => if j = 0 then { k := LH_FREED, k_is_constant := false, v := 1 }
      else emptySlot)
    4 (fun a b => a == b) 7 0
    (fun j hj => by simp [hj])
    (by decide) (by decide) (by decide)).1 4 0

/-- Doubling the capacity restores the load-factor headroom: from a state
satisfying the invariant, one more entry fits under the 0.66 threshold of
the doubled capacity. -/
theorem load_after_double (a b : Nat) (hload : 100 * b ≤ 66 * a)
    (hpos : 0 < a) :
    100 * (b + 1) ≤ 66 * (2 * a) ∧ b + 1 ≤ 2 * a := by omega

/-- C5: a well-formed table under the load-factor invariant has count at
most capacity; every successful insert re-establishes
100 * count ≤ 66 * capacity (the integer form of count / capacity ≤ 0.66),
growing the table beforehand exactly when the incoming entry would push the
load factor above LH_LOAD_FACTOR; deletes preserve both bounds, and a fresh
table satisfies them trivially. -/
theorem C5_load_factor_invariant (t : lh_table) (hWF : WF t)
    (hload : 100 * t.count ≤ 66 * t.size) :
    t.count ≤ t.size ∧
    (∀ k v hsh opts t', lh_table_insert_w_hash t k v hsh opts = (0, t') →
      100 * t'.count ≤ 66 * t'.size ∧ t'.count ≤ t'.size) ∧
    (∀ k r t', lh_table_delete t k = (r, t') →
      100 * t'.count ≤ 66 * t'.size ∧ t'.count ≤ t'.size) ∧
    (∀ (n : Nat) (hf : Nat → Nat) (eqf : Nat → Nat → Bool),
      100 * (mk_table n hf eqf).count ≤ 66 * (mk_table n hf eqf).size ∧
      (mk_table n hf eqf).count ≤ (mk_table n hf eqf).size) := by
  have hcs := count_le_size t hWF
  refine ⟨hcs, ?_, ?_, ?_⟩
  · intro k v hsh opts t' hins
    have hfreshcase : insert_fresh t k v hsh opts = (0, t') →
        100 * t'.count ≤ 66 * t'.size ∧ t'.count ≤ t'.size := by
      intro hins2
      rw [insert_fresh] at hins2
      split at hins2
      · rename_i hcond
        split at hins2
        · simp at hins2
        · rename_i t1 hrc
          obtain ⟨hc2, hs2⟩ := insert_at_count_size t1 k v hsh opts t' hins2
          obtain ⟨-, hsz1, hcnt1, -, -, -, -⟩ :=
            resize_core_spec t (2 * t.size) t1 hWF
              (by have := hWF.size_pos; omega) hrc
          rw [hc2, hs2, hsz1, hcnt1]
          exact load_after_double t.size t.count hload hWF.size_pos
      · rename_i hcond
        obtain ⟨hc2, hs2⟩ := insert_at_count_size t k v hsh opts t' hins2
        rw [hc2, hs2]
        omega
    rw [lh_table_insert_w_hash] at hins
    split at hins
    · split at hins
      · simp only [Prod.mk.injEq] at hins
        obtain ⟨-, rfl⟩ := hins
        exact ⟨hload, hcs⟩
      · exact hfreshcase hins
    · exact hfreshcase hins
  · intro k r t' hdel
    rw [lh_table_delete] at hdel
    split at hdel
    · simp only [Prod.mk.injEq] at hdel
      obtain ⟨-, rfl⟩ := hdel
      exact ⟨hload, hcs⟩
    · rw [lh_table_delete_entry] at hdel
      split at hdel
      · simp only [Prod.mk.injEq] at hdel
        obtain ⟨-, rfl⟩ := hdel
        dsimp only
        omega
      · simp only [Prod.mk.injEq] at hdel
        obtain ⟨-, rfl⟩ := hdel
        exact ⟨hload, hcs⟩
  · intro n hf eqf
    constructor <;> simp [mk_table]

/-- C5 witness at a concrete table: the bound count ≤ capacity holds for the
well-formed table of one entry in four slots. -/
theorem C5_load_factor_invariant_witness : wTableA.count ≤ wTableA.size :=
  (C5_load_factor_invariant wTableA
    ⟨by decide, by decide, by decide, by decide, by decide⟩ (by decide)).1

/-- C7: insertion cannot loop: its probe sequence covers every slot in one
cycle, so a full cycle finding no free slot means every slot is occupied,
whereupon insertion (key absent, resize not triggered, as in a state reached
by bypassing the load-factor policy) returns the defensive failure -1 with
the table unchanged; conversely the full-cycle probe cannot fail while any
free slot exists. -/
theorem C7_insert_defensive_failure (t : lh_table) (k v hsh opts : Nat)
    (hsz : 0 < t.size)
    (hfull : ∀ j, j < t.size → isOccupied (t.table j) = true)
    (hnm : ∀ j, j < t.size → t.equal_fn k (t.table j).k = false)
    (hnr : 100 * (t.count + 1) ≤ 66 * t.size) :
    lh_table_insert_w_hash t k v hsh opts = (-1, t) ∧
    (∀ (tb : Nat → lh_entry) (sz n j0 : Nat), n < sz → j0 < sz →
      isFree (tb j0) = true → probe_free tb sz sz n ≠ none) := by
  constructor
  · have hlkn : lh_table_lookup_entry_w_hash t k hsh = none := by
      rw [lh_table_lookup_entry_w_hash]
      exact probe_lookup_none_full t.table t.size t.equal_fn k hfull hnm
        t.size _ (Nat.mod_lt _ hsz)
    have hpfn : probe_free t.table t.size t.size (hsh % t.size) = none :=
      probe_free_none_full t.table t.size hfull t.size _ (Nat.mod_lt _ hsz)
    have hia : insert_at t k v hsh opts = (-1, t) := by
      rw [insert_at, hpfn]
    have hif : insert_fresh t k v hsh opts = (-1, t) := by
      rw [insert_fresh, if_neg (by omega), hia]
    rw [lh_table_insert_w_hash]
    by_cases ho : (opts &&& JSON_C_OBJECT_ADD_KEY_IS_NEW) = 0
    · rw [if_pos ho, hlkn]
      exact hif
    · rw [if_neg ho]
      exact hif
  · intro tb sz n j0 hn hj0 hfr
    exact probe_free_finds tb sz n j0 hn hj0 hfr

/-- C7 witness at a concrete misused table: all slots occupied while count
claims zero, so insertion of a fresh key fails defensively with -1. -/
theorem C7_insert_defensive_failure_witness :
    lh_table_insert_w_hash wTableFull 9 3 9 0 = (-1, wTableFull) :=
  (C7_insert_defensive_failure wTableFull 9 3 9 0
    (by decide) (by decide) (by decide) (by decide)).1

/-- C2: from a fresh table, any successful sequence of inserts with
pairwise-distinct (never equal under the equality function, non-sentinel)
keys yields a table whose head-to-next iteration walks exactly the inserted
keys, each once, in first-insertion order; in general each fresh insert
appends its key at the tail of the key sequence, and delete-by-entry
splices the entry out of the ordering list, moving the head to the next
entry when the head itself is deleted. -/
theorem C2_insertion_order (n : Nat) (hf : Nat → Nat) (eqf : Nat → Nat → Bool)
    (kvs : List (Nat × Nat)) (t' : lh_table)
    (hn : 0 < n)
    (hsent : ∀ kv ∈ kvs, kv.1 ≠ LH_EMPTY ∧ kv.1 ≠ LH_FREED)
    (hpair : List.Pairwise (fun a b => eqf b.1 a.1 = false) kvs)
    (hins : insertAll (mk_table n hf eqf) kvs = some t') :
    keyList t' = kvs.map Prod.fst ∧
    iterKeys t' = kvs.map Prod.fst ∧
    (∀ (t0 : lh_table) (i : Nat), WF t0 → i ∈ t0.order →
      (lh_table_delete_entry t0 i).1 = 0 ∧
      (lh_table_delete_entry t0 i).2.order = t0.order.erase i ∧
      lh_table_head (lh_table_delete_entry t0 i).2 =
        (t0.order.erase i).head?) ∧
    (∀ (t0 : lh_table) (k v : Nat) (t2 : lh_table), WF t0 →
      k ≠ LH_EMPTY → k ≠ LH_FREED →
      lh_table_lookup_entry t0 k = none →
      lh_table_insert t0 k v = (0, t2) →
      keyList t2 = keyList t0 ++ [k]) := by
  have hWF0 := mk_table_WF n hf eqf hn
  obtain ⟨hWF', hkl, -, -⟩ :=
    insertAll_spec kvs (mk_table n hf eqf) t' hWF0 hsent
      (by intro kv _ x hx; simp [keyList, entryList, mk_table] at hx)
      hpair hins
  refine ⟨?_, ?_, ?_, ?_⟩
  · rw [hkl]
    simp [keyList, entryList, mk_table]
  · rw [iterKeys_eq t' hWF', hkl]
    simp [keyList, entryList, mk_table]
  · intro t0 i hWFt hi
    obtain ⟨h0, -, hord, -, -, -, -, -, -⟩ := delete_entry_spec t0 i hWFt hi
    exact ⟨h0, hord, by rw [lh_table_head, hord]⟩
  · intro t0 k v t2 hWFt hkE hkF hlk hins0
    rw [lh_table_lookup_entry] at hlk
    rw [lh_table_insert] at hins0
    exact insert_w_hash_fresh_keys t0 k v (lh_get_hash t0 k) 0 t2 hWFt
      hkE hkF hlk hins0

/-- C2 witness: inserting the three distinct keys 1, 2, 3 into a fresh
table of capacity 2 (which forces two resizes on the way) iterates them in
insertion order. -/
theorem C2_insertion_order_witness :
    keyList ((insertAll (mk_table 2 (fun a => a) (fun a b => a == b))
      [(1, 10), (2, 20), (3, 30)]).getD
        (mk_table 2 (fun a => a) (fun a b => a == b))) = [1, 2, 3] :=
  (C2_insertion_order 2 (fun a => a) (fun a b => a == b)
    [(1, 10), (2, 20), (3, 30)]
    ((insertAll (mk_table 2 (fun a => a) (fun a b => a == b))
      [(1, 10), (2, 20), (3, 30)]).getD
        (mk_table 2 (fun a => a) (fun a b => a == b)))
    (by decide) (by decide) (by decide) (by rfl)).1

/-- C6: deleting a (uniquely held) present key succeeds, dropping the count
by one, and a subsequent successful re-insert of the same key appends a new
entry at the current tail of the insertion order rather than at the old
position, restoring the length to its pre-delete value. -/
theorem C6_delete_reinsert_tail (t : lh_table) (k v i : Nat)
    (hWF : WF t)
    (hlk : lh_table_lookup_entry t k = some i)
    (huniq : ∀ j ∈ t.order, j ≠ i → t.equal_fn k (t.table j).k = false)
    (hkE : k ≠ LH_EMPTY) (hkF : k ≠ LH_FREED) :
    (lh_table_delete t k).1 = 0 ∧
    (lh_table_delete t k).2.count = t.count - 1 ∧
    (∀ t2, lh_table_insert (lh_table_delete t k).2 k v = (0, t2) →
      t2.count = t.count ∧
      keyList t2 = keyList (lh_table_delete t k).2 ++ [k] ∧
      lh_table_length t2 = lh_table_length t) := by
  have hdel : lh_table_delete t k = lh_table_delete_entry t i := by
    rw [lh_table_delete, hlk]
  have hmem : i ∈ t.order := by
    rw [lh_table_lookup_entry] at hlk
    obtain ⟨hlt, hocc, -⟩ := lookup_w_hash_some t k _ i hlk
    exact (hWF.occ_iff i hlt).mp hocc
  obtain ⟨h0, hcnt, hord, hfr, hframe, hWF1, hh1, he1, hsz1⟩ :=
    delete_entry_spec t i hWF hmem
  refine ⟨by rw [hdel]; exact h0, by rw [hdel]; exact hcnt, ?_⟩
  intro t2 hins
  rw [hdel] at hins
  have hlk1 : lh_table_lookup_entry_w_hash (lh_table_delete_entry t i).2 k
      (lh_get_hash (lh_table_delete_entry t i).2 k) = none := by
    apply lookup_w_hash_none_of_fresh _ k hWF1
    intro j hj
    rw [hord] at hj
    have hjne : j ≠ i := by
      intro hh
      subst hh
      exact hWF.nodup.not_mem_erase hj
    have hjmem : j ∈ t.order := List.erase_subset _ _ hj
    rw [he1, hframe j hjne]
    exact huniq j hjmem hjne
  rw [lh_table_insert] at hins
  have hkeys := insert_w_hash_fresh_keys (lh_table_delete_entry t i).2 k v
    (lh_get_hash (lh_table_delete_entry t i).2 k) 0 t2 hWF1 hkE hkF hlk1 hins
  obtain ⟨-, hcnt2, -, -, -, -⟩ :=
    insert_w_hash_fresh_spec (lh_table_delete_entry t i).2 k v
      (lh_get_hash (lh_table_delete_entry t i).2 k) 0 t2 hWF1 hkE hkF hlk1 hins
  have hpos : 0 < t.count := by
    rw [hWF.count_eq]
    exact List.length_pos_of_mem hmem
  refine ⟨?_, by rw [hdel]; exact hkeys, ?_⟩
  · rw [hcnt2, hcnt]
    omega
  · rw [lh_table_length, lh_table_length, hcnt2, hcnt]
    omega

/-- C6 witness at a concrete table: deleting the present key 9 reports
success. -/
theorem C6_delete_reinsert_tail_witness : (lh_table_delete wTableA 9).1 = 0 :=
  (C6_delete_reinsert_tail wTableA 9 5 1
    ⟨by decide, by decide, by decide, by decide, by decide⟩
    (by decide) (by decide) (by decide) (by decide)).1

/-! Resize transparency for lookup. -/

/-- A key found before a resize is found after it, at a slot holding the
same entry: the rehashed entry sits at the end of a probe run of occupied
slots, none of which can match the key because matching entries are unique. -/
theorem resize_lookup_found (t t' : lh_table) (ns : Nat)
    (hWF : WF t) (hWF' : WF t')
    (hsz : t'.size = ns) (hns : 0 < ns)
    (hh : t'.hash_fn = t.hash_fn) (he : t'.equal_fn = t.equal_fn)
    (hel : entryList t' = entryList t)
    (hf2 : List.Forall₂ (fun (e : lh_entry) (j : Nat) =>
      ∃ m, m < ns ∧ j = (t.hash_fn e.k % ns + m) % ns ∧
        ∀ x, x < m →
          isOccupied (t'.table ((t.hash_fn e.k % ns + x) % ns)) = true)
      (entryList t) t'.order)
    (hDist : ∀ q i1 i2, i1 ∈ t.order → i2 ∈ t.order →
      t.equal_fn q (t.table i1).k = true →
      t.equal_fn q (t.table i2).k = true → i1 = i2)
    (hComp : ∀ a b, t.equal_fn a b = true → t.hash_fn a = t.hash_fn b)
    (q i : Nat)
    (hlq : lh_table_lookup_entry t q = some i) :
    ∃ j, lh_table_lookup_entry t' q = some j ∧ t'.table j = t.table i := by
  rw [lh_table_lookup_entry, lh_get_hash] at hlq
  obtain ⟨hilt, hiocc, hieq⟩ := lookup_w_hash_some t q _ i hlq
  have himem : i ∈ t.order := (hWF.occ_iff i hilt).mp hiocc
  obtain ⟨⟨r, hr⟩, hgr⟩ := List.mem_iff_get.mp himem
  have hmap' : t'.order.map t'.table = t.order.map t.table := by
    simpa [entryList] using hel
  have hlen : t'.order.length = t.order.length := by
    have := congrArg List.length hmap'
    simpa using this
  have hr' : r < t'.order.length := by omega
  obtain ⟨hlen2, hget2⟩ := List.forall₂_iff_get.mp hf2
  have hrE : r < (entryList t).length := by
    rw [entryList, List.length_map]
    exact hr
  have hR := hget2 r hrE hr'
  have hEr : (entryList t).get ⟨r, hrE⟩ = t.table i := by
    show (t.order.map t.table).get ⟨r, hrE⟩ = t.table i
    rw [List.get_map, hgr]
  rw [hEr] at hR
  obtain ⟨mm, hmm, hjeq, hpath⟩ := hR
  have hjslot : t'.table (t'.order.get ⟨r, hr'⟩) = t.table i := by
    have e3 := List.get_of_eq hmap' ⟨r, by simpa using hr'⟩
    rw [List.get_map, List.get_map] at e3
    rw [hgr] at e3
    exact e3
  have hhq : t.hash_fn q = t.hash_fn (t.table i).k := hComp q _ hieq
  refine ⟨t'.order.get ⟨r, hr'⟩, ?_, hjslot⟩
  rw [lh_table_lookup_entry, lh_get_hash, lh_table_lookup_entry_w_hash,
    hh, he, hsz, hhq, hjeq]
  have hslt : t.hash_fn (t.table i).k % ns < ns := Nat.mod_lt _ hns
  apply probe_lookup_path t'.table ns t.equal_fn q mm ns
    (t.hash_fn (t.table i).k % ns) hslt hmm
  · intro x hx
    refine ⟨hpath x hx, ?_⟩
    by_contra hq2
    have hq2' : t.equal_fn q
        (t'.table ((t.hash_fn (t.table i).k % ns + x) % ns)).k = true := by
      revert hq2
      cases t.equal_fn q
        (t'.table ((t.hash_fn (t.table i).k % ns + x) % ns)).k <;> simp
    have hplt : (t.hash_fn (t.table i).k % ns + x) % ns < ns :=
      Nat.mod_lt _ hns
    have hpmem : (t.hash_fn (t.table i).k % ns + x) % ns ∈ t'.order := by
      refine (hWF'.occ_iff _ ?_).mp (hpath x hx)
      rw [hsz]
      exact hplt
    obtain ⟨⟨rp, hrp⟩, hgrp⟩ := List.mem_iff_get.mp hpmem
    have hrp2 : rp < t.order.length := by omega
    have hpslot : t'.table ((t.hash_fn (t.table i).k % ns + x) % ns) =
        t.table (t.order.get ⟨rp, hrp2⟩) := by
      have e3 := List.get_of_eq hmap' ⟨rp, by simpa using hrp⟩
      rw [List.get_map, List.get_map] at e3
      rw [hgrp] at e3
      exact e3
    have hipmem : t.order.get ⟨rp, hrp2⟩ ∈ t.order := List.get_mem _ _ _
    have hipeq : t.equal_fn q (t.table (t.order.get ⟨rp, hrp2⟩)).k = true := by
      rw [← hpslot]
      exact hq2'
    have hii : t.order.get ⟨rp, hrp2⟩ = i := hDist q _ i hipmem himem hipeq hieq
    have hfin : (⟨rp, hrp2⟩ : Fin t.order.length) = ⟨r, hr⟩ := by
      apply (hWF.nodup.get_inj_iff).mp
      rw [hgr]
      exact hii
    have hrpr : rp = r := by
      have := congrArg Fin.val hfin
      simpa using this
    subst hrpr
    have hpj : (t.hash_fn (t.table i).k % ns + x) % ns =
        t'.order.get ⟨rp, hr'⟩ := hgrp.symm
    rw [hjeq] at hpj
    have := probe_offset_inj (t.hash_fn (t.table i).k % ns) ns x mm
      (Nat.lt_trans hx hmm) hmm hpj
    omega
  · rw [← hjeq]
    rw [isOccupied_iff] at hiocc ⊢
    rw [hjslot]
    exact hiocc
  · rw [← hjeq, hjslot]
    exact hieq

/-- A key absent before a resize stays absent after it: any hit in the new
array would be a rehashed entry, which by findability was already reachable
in the old array, contradicting the failed lookup. -/
theorem resize_lookup_none (t t' : lh_table) (ns : Nat)
    (hWF : WF t) (hWF' : WF t')
    (hsz : t'.size = ns) (hns : 0 < ns)
    (hh : t'.hash_fn = t.hash_fn) (he : t'.equal_fn = t.equal_fn)
    (hel : entryList t' = entryList t)
    (hFind : ∀ i ∈ t.order, lh_table_lookup_entry t ((t.table i).k) = some i)
    (hComp : ∀ a b, t.equal_fn a b = true → t.hash_fn a = t.hash_fn b)
    (q : Nat)
    (hlq : lh_table_lookup_entry t q = none) :
    lh_table_lookup_entry t' q = none := by
  cases hlq' : lh_table_lookup_entry t' q with
  | none => rfl
  | some j =>
    exfalso
    rw [lh_table_lookup_entry] at hlq'
    obtain ⟨hjlt, hjocc, hjeq⟩ := lookup_w_hash_some t' q _ j hlq'
    have hjmem : j ∈ t'.order := (hWF'.occ_iff j hjlt).mp hjocc
    have hjel : t'.table j ∈ entryList t := by
      rw [← hel, entryList]
      exact List.mem_map_of_mem _ hjmem
    rw [entryList] at hjel
    obtain ⟨i2, hi2mem, hi2eq⟩ := List.mem_map.mp hjel
    rw [he] at hjeq
    rw [← hi2eq] at hjeq
    have hfind2 := hFind i2 hi2mem
    rw [lh_table_lookup_entry, lh_get_hash, lh_table_lookup_entry_w_hash]
      at hfind2 hlq
    have hkey : t.hash_fn q = t.hash_fn ((t.table i2).k) := hComp q _ hjeq
    rw [hkey] at hlq
    have hsp : 0 < t.size := hWF.size_pos
    obtain ⟨m2, hm2, hi2pos, hpath2, -, -⟩ :=
      probe_lookup_some t.table t.size t.equal_fn ((t.table i2).k) t.size
        (t.hash_fn ((t.table i2).k) % t.size) i2 (Nat.mod_lt _ hsp) hfind2
    have hnm := probe_lookup_none t.table t.size t.equal_fn q t.size
      (t.hash_fn ((t.table i2).k) % t.size) (Nat.mod_lt _ hsp) hlq m2 hm2
      (fun x hx => (hpath2 x hx).1)
    rw [← hi2pos] at hnm
    exact hnm ⟨(hWF.occ_iff i2 (hWF.mem_lt i2 hi2mem)).mpr hi2mem, hjeq⟩

/-- C9: explicit resize validates its argument, failing with -1 on any
non-positive requested size and leaving the table untouched; a successful
resize is externally transparent: count, the entry sequence, the iteration
order, and every lookup result (found flag and value) are unchanged. -/
theorem C9_resize_validation_transparency (t : lh_table)
    (hWF : WF t)
    (hFind : ∀ i ∈ t.order, lh_table_lookup_entry t ((t.table i).k) = some i)
    (hDist : ∀ q i1 i2, i1 ∈ t.order → i2 ∈ t.order →
      t.equal_fn q (t.table i1).k = true →
      t.equal_fn q (t.table i2).k = true → i1 = i2)
    (hComp : ∀ a b, t.equal_fn a b = true → t.hash_fn a = t.hash_fn b) :
    (∀ m : Int, m ≤ 0 → lh_table_resize t m = (-1, t)) ∧
    (∀ (m : Int) (t' : lh_table), lh_table_resize t m = (0, t') →
      t'.count = t.count ∧ entryList t' = entryList t ∧
      iterKeys t' = iterKeys t ∧
      (∀ q, lh_table_lookup_ex t' q = lh_table_lookup_ex t q)) := by
  constructor
  · intro m hm
    rw [lh_table_resize, if_pos hm]
  · intro m t' hrz
    rw [lh_table_resize] at hrz
    split at hrz
    · simp at hrz
    · rename_i hm
      split at hrz
      · simp at hrz
      · rename_i t1 hrc
        simp only [Prod.mk.injEq] at hrz
        obtain ⟨-, rfl⟩ := hrz
        have hns : 0 < m.toNat := by omega
        obtain ⟨hWF1, hsz1, hcnt1, hel1, hh1, he1, hf21⟩ :=
          resize_core_spec t m.toNat t1 hWF hns hrc
        refine ⟨hcnt1, hel1, ?_, ?_⟩
        · rw [iterKeys_eq t1 hWF1, iterKeys_eq t hWF, keyList, keyList, hel1]
        · intro q
          rw [lh_table_lookup_ex, lh_table_lookup_ex]
          cases hlq : lh_table_lookup_entry t q with
          | none =>
            rw [resize_lookup_none t t1 m.toNat hWF hWF1 hsz1 hns hh1 he1
              hel1 hFind hComp q hlq]
          | some i =>
            obtain ⟨j, hlj, hjslot⟩ :=
              resize_lookup_found t t1 m.toNat hWF hWF1 hsz1 hns hh1 he1
                hel1 hf21 hDist hComp q i hlq
            rw [hlj]
            show (true, some ((t1.table j).v)) = (true, some ((t.table i).v))
            rw [hjslot]

/-- C9 witness at a concrete table: the non-positive requested size -1 is
rejected with -1 and the table is left unchanged. -/
theorem C9_resize_validation_transparency_witness :
    lh_table_resize wTableA (-1) = (-1, wTableA) :=
  (C9_resize_validation_transparency wTableA
    ⟨by decide, by decide, by decide, by decide, by decide⟩
    (by decide)
    (by
      intro q i1 i2 h1 h2 hq1 hq2
      simp [wTableA] at h1 h2
      rw [h1, h2])
    (by
      intro a b hab
      simp [wTableA] at hab ⊢
      exact hab)).1 (-1) (by decide)
